import Mathlib

/-!
Shallow embedding of the project/database layer of the hecl asset pipeline
(`include/hecl/Database.hpp`).  The header ships only declarations for most of
the `Project` and `ConfigFile` surface; where an implementation is absent from
the sources, the corresponding Lean definition is modelled from the
specification's description and marked `Modelled from the spec:` in its doc
comment.  Inline member functions that do appear in the header
(`PackageDepsgraph::getRootNode`, the base-class bodies of `IDataSpec`) are
translated directly from that code.
-/

namespace hecl

namespace Database

/-! ## ConfigFile

`Project::ConfigFile` holds a path to a line-delimited textual configuration
file and supports locked read/modify/commit transactions.  Only the class
declaration is in the header; the transaction semantics below are modelled
from the spec.  The backing file ("disk") is a list of lines; the handle keeps
the in-memory ordered line sequence and the lock state. -/

structure ConfigFile where
  m_lines : List String
  m_locked : Bool
deriving Repr, DecidableEq

namespace ConfigFile

/-- Modelled from the spec: `lockAndRead()` acquires an exclusive lock on the
backing file and loads its lines into the in-memory ordered sequence
(`std::vector<std::string> m_lines`).  Lock acquisition itself is external
I/O; the disk contents are passed in explicitly. -/
def lockAndRead (disk : List String) : ConfigFile :=
  { m_lines := disk, m_locked := true }

/-- Modelled from the spec: `addLine(line)` appends the line only if it is not
already present. -/
def addLine (cf : ConfigFile) (line : String) : ConfigFile :=
  if cf.m_lines.contains line then cf
  else { cf with m_lines := cf.m_lines ++ [line] }

/-- Modelled from the spec: `removeLine(refLine)` removes the first exact
match and is a no-op if the line is absent.  `List.erase` removes exactly the
first occurrence. -/
def removeLine (cf : ConfigFile) (refLine : String) : ConfigFile :=
  { cf with m_lines := cf.m_lines.erase refLine }

/-- Modelled from the spec: `checkForLine(refLine)` is a membership test
against the in-memory sequence. -/
def checkForLine (cf : ConfigFile) (refLine : String) : Bool :=
  cf.m_lines.contains refLine

/-- Modelled from the spec: `unlockAndDiscard()` releases the lock and drops
the in-memory edits; the backing file keeps its previous contents. -/
def unlockAndDiscard (disk : List String) (cf : ConfigFile) : List String × ConfigFile :=
  (disk, { m_lines := [], m_locked := false })

/-- Modelled from the spec: `unlockAndCommit()` atomically rewrites the
backing file with the current in-memory sequence and releases the lock,
returning the new disk contents and the success flag (I/O failure is outside
the model, so commit succeeds). -/
def unlockAndCommit (cf : ConfigFile) : List String × Bool :=
  (cf.m_lines, true)

end ConfigFile

/-! ## Bridge path cache

`Project` keeps `std::unordered_map<uint64_t, ProjectPath> m_bridgePathCache`.
Only the member declarations are in the header; the map operations are
modelled from the spec as an association list in which the most recent
insertion for an id shadows older ones. -/

/-- A `ProjectPath` normalized relative to the project root, modelled as its
list of path components. -/
abbrev ProjectPath := List String

/-- Modelled from the spec: `addBridgePathToCache(id, path)` stores the
mapping id ↦ path, overriding any previous mapping for the same id. -/
def addBridgePathToCache (cache : List (Nat × ProjectPath)) (id : Nat) (path : ProjectPath) :
    List (Nat × ProjectPath) :=
  (id, path) :: cache

/-- Modelled from the spec: `clearBridgePathCache()` drops every mapping. -/
def clearBridgePathCache (cache : List (Nat × ProjectPath)) : List (Nat × ProjectPath) :=
  []

/-- Modelled from the spec: `lookupBridgePath(id)` returns the stored path for
the id, or null (`none`) when the id has no mapping.  The first entry found is
the most recently stored one. -/
def lookupBridgePath (cache : List (Nat × ProjectPath)) (id : Nat) : Option ProjectPath :=
  (cache.find? (fun e => e.1 == id)).map (fun e => e.2)

/-! ## IDataSpec base-class bodies

These bodies are present verbatim in the header: the base `canExtract`,
`canCook` and `canPackage` return `false` (the first two after logging
"not implemented"), and the base `overrideDataSpec` returns `oldEntry`
unchanged. -/

/-- `IDataSpec::ExtractPassInfo` from the header. -/
structure ExtractPassInfo where
  srcpath : String
  extractArgs : List String
  force : Bool

/-- `IDataSpec::ExtractReport` from the header (child reports flattened to a
list of names; the base `canExtract` never touches them). -/
structure ExtractReport where
  name : String
  desc : String

/-- `DataSpecEntry` from the header (the factory closure is external). -/
structure DataSpecEntry where
  m_name : String
  m_desc : String
  m_pakExt : String
  m_numCookPasses : Int
deriving Repr, DecidableEq

namespace IDataSpec

/-- Base `IDataSpec::canExtract`: logs "not implemented" and returns false,
leaving the report vector untouched. -/
def canExtract (info : ExtractPassInfo) (reps : List ExtractReport) : Bool :=
  false

/-- Base `IDataSpec::canCook`: logs "not implemented" and returns false. -/
def canCook (path : ProjectPath) (cookPass : Int) : Bool :=
  false

/-- Base `IDataSpec::overrideDataSpec`: returns `oldEntry` unchanged (the
pointer argument is modelled as an `Option`). -/
def overrideDataSpec (path : ProjectPath) (oldEntry : Option DataSpecEntry) :
    Option DataSpecEntry :=
  oldEntry

/-- Base `IDataSpec::canPackage`: returns false. -/
def canPackage (path : ProjectPath) : Bool :=
  false

end IDataSpec

/-! ## DataSpec preferences

`Project::enableDataSpecs`/`disableDataSpecs` are declared in the header; the
behaviour is modelled from the spec: validate every name against the DataSpec
registry, and only if all are known rewrite the specs store as one locked
transaction through the `ConfigFile` operations.  The per-project compiled
spec list mirrors registry order, with the active flag read from the store. -/

/-- Modelled from the spec: `rescanDataSpecs`/`getDataSpecs` recompute the
per-registry-entry active flags from the current specs store: an entry is
active exactly when its name is a line of the store. -/
def rescanActive (registry : List String) (disk : List String) : List (String × Bool) :=
  registry.map (fun s => (s, disk.contains s))

/-- Modelled from the spec: `enableDataSpecs(specs)` validates each name
against the registry; with an unknown name the store is untouched and the call
returns false; otherwise each name is added to the specs store in one locked
transaction.  Returns the success flag and the new store contents. -/
def enableDataSpecs (registry : List String) (disk : List String) (names : List String) :
    Bool × List String :=
  if names.all (fun n => registry.contains n) then
    (true, ((names.foldl ConfigFile.addLine (ConfigFile.lockAndRead disk)).unlockAndCommit).1)
  else
    (false, disk)

/-- Modelled from the spec: `disableDataSpecs(specs)`, dual to
`enableDataSpecs`: each validated name's line is removed from the specs store
in one locked transaction. -/
def disableDataSpecs (registry : List String) (disk : List String) (names : List String) :
    Bool × List String :=
  if names.all (fun n => registry.contains n) then
    (true, ((names.foldl ConfigFile.removeLine (ConfigFile.lockAndRead disk)).unlockAndCommit).1)
  else
    (false, disk)

/-! ## Cooking

`Project::cookPath` is declared in the header; its change-detection skip is
modelled from the spec: without `force`, an object whose working source is
unchanged since the recorded cook is skipped with no rewrite of the cooked
output. -/

/-- A cooked output record: the cooked bytes together with the hash of the
working source they were cooked from (the change-detection key). -/
structure CookedOut where
  bytes : List Nat
  srcHash : Nat
deriving Repr, DecidableEq

/-- Modelled from the spec: `cookPath` on a single object.  `cookFn` is the
spec plugin's deterministic cook function and `hashFn` the source hasher;
`src` is the current working source, `cooked` the cooked output on disk (none
when never cooked).  Without `force`, a present cooked output whose recorded
source hash matches the current source is left untouched; otherwise the
object is cooked and the output rewritten.  Returns the cooked output state
and whether the output file was (re)written. -/
def cookPath (cookFn : Nat → List Nat) (hashFn : Nat → Nat) (src : Nat)
    (cooked : Option CookedOut) (force : Bool) : Option CookedOut × Bool :=
  match cooked with
  | some r =>
      if !force && r.srcHash == hashFn src then (some r, false)
      else (some { bytes := cookFn src, srcHash := hashFn src }, true)
  | none => (some { bytes := cookFn src, srcHash := hashFn src }, true)

/-! ## Tracked paths

`Project::addPaths`, `removePaths` and `cleanPath` are declared in the header;
their path validation, aggregate failure model and frame conditions are
modelled from the spec. -/

/-- Modelled from the spec: a path lies within the project root when the
root's components are a prefix of the path's components. -/
def withinRoot (root : List String) (p : ProjectPath) : Bool :=
  root.isPrefixOf p

/-- Modelled from the spec: `addPaths(paths)` validates each path against the
project root and registers every validated path in the paths store; an entry
that fails validation makes the overall call return false, but entries
already registered stay registered and the remaining entries are still
processed (aggregate failure model). -/
def addPaths (root : List String) (store : List ProjectPath) :
    List ProjectPath → Bool × List ProjectPath
  | [] => (true, store)
  | p :: rest =>
      if withinRoot root p then
        addPaths root (store ++ [p]) rest
      else
        (false, (addPaths root store rest).2)

/-- Project filesystem state as the spec carves it up: working source files,
tracked-path entries of the paths store, and cooked outputs (the cooked tree
mirrors working-tree relative paths, so a cooked output is keyed by the same
path as its source). -/
structure ProjectFS where
  working : List ProjectPath
  tracked : List ProjectPath
  cooked : List ProjectPath
deriving Repr, DecidableEq

/-- Modelled from the spec: an operation on path `p` touches entry `t` when
the entry is `p` itself, or — in recursive mode — a descendant of `p`
(pattern expansion by path containment). -/
def pathMatches (recursive : Bool) (p t : ProjectPath) : Bool :=
  t == p || (recursive && p.isPrefixOf t)

/-- Modelled from the spec: `removePaths(paths, recursive)` removes the
matched tracked entries and deletes their cooked outputs; working source
files are never deleted. -/
def removePaths (fs : ProjectFS) (paths : List ProjectPath) (recursive : Bool) : ProjectFS :=
  { working := fs.working
    tracked := fs.tracked.filter (fun t => !(paths.any (fun p => pathMatches recursive p t)))
    cooked := fs.cooked.filter (fun c => !(paths.any (fun p => pathMatches recursive p c))) }

/-- Modelled from the spec: `cleanPath(path, recursive)` deletes the cooked
outputs for the path (and its descendants when recursive) while touching
neither working sources nor tracked-path entries. -/
def cleanPath (fs : ProjectFS) (path : ProjectPath) (recursive : Bool) : ProjectFS :=
  { working := fs.working
    tracked := fs.tracked
    cooked := fs.cooked.filter (fun c => !(pathMatches recursive path c)) }

/-! ## PackageDepsgraph

The node store and `getRootNode` are in the header:
`std::vector<Node> m_nodes;` and `getRootNode() {return &m_nodes[0];}`.
A node is identified here by its object id; indexing past the end of the
store — undefined behaviour in the C++ — is modelled by the `Option` of
`List.getElem?`.  `Project::buildPackageDepsgraph` itself is only declared, so
the work-list construction is modelled from the spec: starting from the root
object, repeatedly invoke the `gatherDeps`-derived direct-dependency function
on every newly discovered object, appending each dependency not yet present
exactly once. -/

/-- The depsgraph node store (`std::vector<Node> m_nodes`), nodes identified
by object id. -/
structure PackageDepsgraph where
  m_nodes : List Nat
deriving Repr, DecidableEq

/-- `PackageDepsgraph::getRootNode` from the header: the address of element 0
of the node store; an empty store yields no valid node (`none`). -/
def PackageDepsgraph.getRootNode (g : PackageDepsgraph) : Option Nat :=
  g.m_nodes[0]?

/-- Modelled from the spec: one round of the work-list — every direct
dependency of an already-discovered object that is not yet in the store is
appended, first occurrence first, each at most once. -/
def depsStep (deps : Nat → List Nat) (acc : List Nat) : List Nat :=
  acc ++ ((acc.flatMap deps).filter (fun d => decide (d ∉ acc))).dedup

/-- Modelled from the spec: iterate the work-list round `k` times. -/
def closureIter (deps : Nat → List Nat) : Nat → List Nat → List Nat
  | 0, acc => acc
  | k + 1, acc => closureIter deps k (depsStep deps acc)

/-- Modelled from the spec: `buildPackageDepsgraph(path)` rooted at object
`root`, with `n` an upper bound on the object ids of the project (the object
database is finite); `n` rounds of the work-list reach the dependency
fixpoint. -/
def buildPackageDepsgraph (deps : Nat → List Nat) (n root : Nat) : PackageDepsgraph :=
  { m_nodes := closureIter deps n [root] }

/-- The direct-or-transitive dependency relation derived from `gatherDeps`:
everything reachable from the root along direct-dependency edges (the root
itself included, as the root node). -/
inductive DepReach (deps : Nat → List Nat) (root : Nat) : Nat → Prop
  | refl : DepReach deps root root
  | tail {x d : Nat} : DepReach deps root x → d ∈ deps x → DepReach deps root d

/-! ## Helper lemmas -/

lemma addPaths_fst (root : List String) (store : List ProjectPath) (paths : List ProjectPath) :
    (addPaths root store paths).1 = paths.all (fun p => withinRoot root p) := by
  induction paths generalizing store with
  | nil => rfl
  | cons p rest ih =>
    by_cases h : withinRoot root p
    · simp [addPaths, h, ih]
    · simp [addPaths, h]

lemma addPaths_snd (root : List String) (store : List ProjectPath) (paths : List ProjectPath) :
    (addPaths root store paths).2 = store ++ paths.filter (fun p => withinRoot root p) := by
  induction paths generalizing store with
  | nil => simp [addPaths]
  | cons p rest ih =>
    by_cases h : withinRoot root p
    · simp [addPaths, h, ih, List.filter_cons]
    · simp [addPaths, h, ih, List.filter_cons]

lemma addLine_contains (cf : ConfigFile) (X : String) :
    (cf.addLine X).m_lines.contains X = true := by
  unfold ConfigFile.addLine
  by_cases h : cf.m_lines.contains X
  · rw [if_pos h]
    exact h
  · rw [if_neg h]
    simp [List.elem_iff]

lemma addLine_lines_mono (names : List String) (cf : ConfigFile) (m : String)
    (hm : m ∈ cf.m_lines) : m ∈ (names.foldl ConfigFile.addLine cf).m_lines := by
  induction names generalizing cf with
  | nil => exact hm
  | cons x rest ih =>
    apply ih
    unfold ConfigFile.addLine
    split
    · exact hm
    · simp [hm]

lemma mem_foldl_addLine (names : List String) (cf : ConfigFile) (n : String) (hn : n ∈ names) :
    n ∈ (names.foldl ConfigFile.addLine cf).m_lines := by
  induction names generalizing cf with
  | nil => cases hn
  | cons x rest ih =>
    rw [List.mem_cons] at hn
    rcases hn with rfl | hn
    · exact addLine_lines_mono rest (cf.addLine n) n (List.elem_iff.mp (addLine_contains cf n))
    · exact ih (cf.addLine x) hn

lemma foldl_removeLine_lines (names : List String) (cf : ConfigFile) :
    (names.foldl ConfigFile.removeLine cf).m_lines =
      names.foldl (fun l x => l.erase x) cf.m_lines := by
  induction names generalizing cf with
  | nil => rfl
  | cons x rest ih =>
    show (rest.foldl ConfigFile.removeLine (cf.removeLine x)).m_lines = _
    rw [ih (cf.removeLine x)]
    rfl

lemma mem_of_mem_foldl_erase (names l : List String) (m : String)
    (hm : m ∈ names.foldl (fun acc x => acc.erase x) l) : m ∈ l := by
  induction names generalizing l with
  | nil => exact hm
  | cons x rest ih => exact List.mem_of_mem_erase (ih (l.erase x) hm)

lemma not_mem_foldl_erase (names l : List String) (hl : l.Nodup) (n : String) (hn : n ∈ names) :
    n ∉ names.foldl (fun acc x => acc.erase x) l := by
  induction names generalizing l with
  | nil => cases hn
  | cons x rest ih =>
    rw [List.mem_cons] at hn
    rcases hn with rfl | hn
    · intro hmem
      exact hl.not_mem_erase (mem_of_mem_foldl_erase rest (l.erase n) n hmem)
    · exact ih (l.erase x) (hl.erase x) hn

/-- A node list is closed under the direct-dependency function. -/
def IsClosedDeps (deps : Nat → List Nat) (l : List Nat) : Prop :=
  ∀ x ∈ l, ∀ d ∈ deps x, d ∈ l

lemma closureIter_eq_append (deps : Nat → List Nat) :
    ∀ (k : Nat) (acc : List Nat), ∃ t, closureIter deps k acc = acc ++ t := by
  intro k
  induction k with
  | zero => exact fun acc => ⟨[], by simp [closureIter]⟩
  | succ k ih =>
    intro acc
    obtain ⟨t, ht⟩ := ih (depsStep deps acc)
    refine ⟨((acc.flatMap deps).filter (fun d => decide (d ∉ acc))).dedup ++ t, ?_⟩
    simp only [closureIter]
    rw [ht]
    simp [depsStep]

lemma mem_closureIter_of_mem (deps : Nat → List Nat) (k : Nat) (acc : List Nat) (x : Nat)
    (hx : x ∈ acc) : x ∈ closureIter deps k acc := by
  obtain ⟨t, ht⟩ := closureIter_eq_append deps k acc
  rw [ht]
  exact List.mem_append_left t hx

lemma depsStep_nodup (deps : Nat → List Nat) (acc : List Nat) (h : acc.Nodup) :
    (depsStep deps acc).Nodup := by
  refine List.Nodup.append h (List.nodup_dedup _) ?_
  intro a ha hb
  exact of_decide_eq_true (List.mem_filter.mp (List.mem_dedup.mp hb)).2 ha

lemma closureIter_nodup (deps : Nat → List Nat) :
    ∀ (k : Nat) (acc : List Nat), acc.Nodup → (closureIter deps k acc).Nodup := by
  intro k
  induction k with
  | zero => exact fun acc h => h
  | succ k ih =>
    intro acc h
    simp only [closureIter]
    exact ih (depsStep deps acc) (depsStep_nodup deps acc h)

lemma depsStep_lt (deps : Nat → List Nat) (n : Nat) (acc : List Nat)
    (hdeps : ∀ x d, d ∈ deps x → d < n) (hacc : ∀ a ∈ acc, a < n) :
    ∀ a ∈ depsStep deps acc, a < n := by
  intro a ha
  unfold depsStep at ha
  rcases List.mem_append.mp ha with h | h
  · exact hacc a h
  · obtain ⟨x, hx, hdx⟩ := List.mem_flatMap.mp (List.mem_filter.mp (List.mem_dedup.mp h)).1
    exact hdeps x a hdx

lemma depsStep_eq_self_iff (deps : Nat → List Nat) (acc : List Nat) :
    depsStep deps acc = acc ↔ IsClosedDeps deps acc := by
  unfold depsStep
  rw [List.append_right_eq_self, List.dedup_eq_nil, List.filter_eq_nil_iff]
  simp only [decide_eq_true_eq, not_not]
  constructor
  · intro h x hx d hd
    exact h d (List.mem_flatMap.mpr ⟨x, hx, hd⟩)
  · intro h a ha
    obtain ⟨x, hx, hd⟩ := List.mem_flatMap.mp ha
    exact h x hx a hd

lemma closureIter_of_closed (deps : Nat → List Nat) (k : Nat) (acc : List Nat)
    (h : depsStep deps acc = acc) : closureIter deps k acc = acc := by
  induction k with
  | zero => rfl
  | succ k ih =>
    simp only [closureIter]
    rw [h]
    exact ih

lemma length_lt_of_step_ne (deps : Nat → List Nat) (acc : List Nat)
    (h : depsStep deps acc ≠ acc) : acc.length < (depsStep deps acc).length := by
  unfold depsStep at h ⊢
  rcases e : ((acc.flatMap deps).filter (fun d => decide (d ∉ acc))).dedup with _ | ⟨a, t⟩
  · exact absurd (by rw [e]; simp) h
  · simp only [e, List.length_append, List.length_cons]
    omega

lemma length_le_of_nodup_lt (l : List Nat) (n : Nat) (hl : l.Nodup) (hb : ∀ a ∈ l, a < n) :
    l.length ≤ n := by
  have h := List.Subperm.length_le
    (List.subperm_of_subset hl (fun a ha => List.mem_range.mpr (hb a ha)))
  simpa using h

lemma closureIter_closed (deps : Nat → List Nat) (n : Nat)
    (hdeps : ∀ x d, d ∈ deps x → d < n) :
    ∀ (k : Nat) (acc : List Nat), acc.Nodup → (∀ a ∈ acc, a < n) →
      n + 1 ≤ acc.length + k → IsClosedDeps deps (closureIter deps k acc) := by
  intro k
  induction k with
  | zero =>
    intro acc hnd hb hlen
    have hle := length_le_of_nodup_lt acc n hnd hb
    exact absurd hle (by omega)
  | succ k ih =>
    intro acc hnd hb hlen
    by_cases h : depsStep deps acc = acc
    · rw [closureIter_of_closed deps (k + 1) acc h]
      exact (depsStep_eq_self_iff deps acc).mp h
    · simp only [closureIter]
      apply ih
      · exact depsStep_nodup deps acc hnd
      · exact depsStep_lt deps n acc hdeps hb
      · have := length_lt_of_step_ne deps acc h
        omega

lemma closureIter_sound (deps : Nat → List Nat) (root : Nat) :
    ∀ (k : Nat) (acc : List Nat), (∀ a ∈ acc, DepReach deps root a) →
      ∀ x ∈ closureIter deps k acc, DepReach deps root x := by
  intro k
  induction k with
  | zero => exact fun acc h x hx => h x hx
  | succ k ih =>
    intro acc h x hx
    simp only [closureIter] at hx
    refine ih (depsStep deps acc) ?_ x hx
    intro a ha
    unfold depsStep at ha
    rcases List.mem_append.mp ha with h1 | h1
    · exact h a h1
    · obtain ⟨y, hy, hd⟩ := List.mem_flatMap.mp (List.mem_filter.mp (List.mem_dedup.mp h1)).1
      exact DepReach.tail (h y hy) hd

lemma closureIter_complete (deps : Nat → List Nat) (n root : Nat)
    (hroot : root < n) (hdeps : ∀ x d, d ∈ deps x → d < n) :
    ∀ x, DepReach deps root x → x ∈ closureIter deps n [root] := by
  intro x hx
  induction hx with
  | refl => exact mem_closureIter_of_mem deps n [root] root (by simp)
  | tail hreach hd ih =>
    exact closureIter_closed deps n hdeps n [root] (by simp)
      (by simpa using hroot) (by simp only [List.length_singleton]; omega) _ ih _ hd

/-- The diamond dependency shape: the root 0 depends on 1 and 2, which both
depend on the shared object 3. -/
def diamondDeps : Nat → List Nat
  | 0 => [1, 2]
  | 1 => [3]
  | 2 => [3]
  | _ => []

/-! ## Claim theorems (with the definitions above) -/

/-- C10: the base `IDataSpec::overrideDataSpec` is the identity on spec
entries — a spec that does not override returns `oldEntry` unchanged — and
the base `canExtract`, `canCook` and `canPackage` all return false, so a
plugin implementing none of them can never report itself able to extract,
cook or package. -/
theorem baseDataSpec_defaults :
    (∀ (path : ProjectPath) (old : Option DataSpecEntry),
      IDataSpec.overrideDataSpec path old = old) ∧
    (∀ (info : ExtractPassInfo) (reps : List ExtractReport),
      IDataSpec.canExtract info reps = false) ∧
    (∀ (path : ProjectPath) (cookPass : Int), IDataSpec.canCook path cookPass = false) ∧
    (∀ path : ProjectPath, IDataSpec.canPackage path = false) :=
  ⟨fun _ _ => rfl, fun _ _ => rfl, fun _ _ => rfl, fun _ => rfl⟩

/-- C5: bridge cache lookup is exactly the last stored mapping — after
`addBridgePathToCache(id, P)`, `lookupBridgePath(id)` returns `P`, and after
`clearBridgePathCache()` every id looks up to null. -/
theorem bridgeCache_spec (cache : List (Nat × ProjectPath)) (id : Nat) (path : ProjectPath) :
    lookupBridgePath (addBridgePathToCache cache id path) id = some path ∧
    (∀ j : Nat, lookupBridgePath (clearBridgePathCache cache) j = none) := by
  constructor
  · simp [lookupBridgePath, addBridgePathToCache, List.find?]
  · intro j
    simp [lookupBridgePath, clearBridgePathCache]

/-- C4: cooking is idempotent on unchanged input — after one `cookPath`
without `force`, a second `cookPath` on the unchanged working source returns
the identical cooked output and performs no rewrite of the cooked file. -/
theorem cookPath_idempotent (cookFn : Nat → List Nat) (hashFn : Nat → Nat) (src : Nat)
    (cooked : Option CookedOut) :
    cookPath cookFn hashFn src (cookPath cookFn hashFn src cooked false).1 false =
      ((cookPath cookFn hashFn src cooked false).1, false) := by
  cases cooked with
  | none => simp [cookPath]
  | some r =>
    by_cases h : r.srcHash = hashFn src
    · simp [cookPath, h]
    · simp [cookPath, h]

/-- C6: `addPaths` has an aggregate failure model — the returned flag is true
exactly when every path validates against the project root, the resulting
store is the old store extended with every validated entry (so entries
registered before a failing entry remain registered), and the call returns
false exactly when some entry failed validation. -/
theorem addPaths_aggregate (root : List String) (store : List ProjectPath)
    (paths : List ProjectPath) :
    (addPaths root store paths).1 = paths.all (fun p => withinRoot root p) ∧
    (addPaths root store paths).2 = store ++ paths.filter (fun p => withinRoot root p) ∧
    (∀ p : ProjectPath, p ∈ (addPaths root store paths).2 ↔
      p ∈ store ∨ (p ∈ paths ∧ withinRoot root p = true)) ∧
    ((addPaths root store paths).1 = false ↔
      ∃ p, p ∈ paths ∧ withinRoot root p = false) := by
  refine ⟨addPaths_fst root store paths, addPaths_snd root store paths, ?_, ?_⟩
  · intro p
    rw [addPaths_snd root store paths]
    simp [List.mem_filter]
  · rw [addPaths_fst root store paths]
    rw [List.all_eq_false]
    constructor
    · rintro ⟨p, hp, hnp⟩
      exact ⟨p, hp, by simpa using hnp⟩
    · rintro ⟨p, hp, hnp⟩
      exact ⟨p, hp, by simp [hnp]⟩

/-- C7: working sources are never deleted — `removePaths` leaves the working
file set unchanged while removing exactly the matched tracked entries and
their cooked outputs, and `cleanPath` removes exactly the matched cooked
outputs (descendants included when recursive) while leaving both working
sources and tracked-path entries unchanged. -/
theorem removePaths_cleanPath_frame (fs : ProjectFS) (paths : List ProjectPath)
    (p : ProjectPath) (recursive : Bool) :
    (removePaths fs paths recursive).working = fs.working ∧
    (cleanPath fs p recursive).working = fs.working ∧
    (cleanPath fs p recursive).tracked = fs.tracked ∧
    (∀ t : ProjectPath, t ∈ (removePaths fs paths recursive).tracked ↔
      t ∈ fs.tracked ∧ paths.any (fun q => pathMatches recursive q t) = false) ∧
    (∀ c : ProjectPath, c ∈ (removePaths fs paths recursive).cooked ↔
      c ∈ fs.cooked ∧ paths.any (fun q => pathMatches recursive q c) = false) ∧
    (∀ c : ProjectPath, c ∈ (cleanPath fs p recursive).cooked ↔
      c ∈ fs.cooked ∧ pathMatches recursive p c = false) := by
  refine ⟨rfl, rfl, rfl, ?_, ?_, ?_⟩ <;>
    intro x <;>
      simp [removePaths, cleanPath, List.mem_filter]

/-- C1 counterexample: the claim as stated fails when the backing store
already holds the same line twice (nothing in the line-oriented store format
forbids this, and `removeLine` removes only the first exact match).  With
store `["a", "a"]`, after `lockAndRead`, `removeLine("a")`,
`unlockAndCommit`, and reopening, `checkForLine("a")` is still true, not
false. -/
theorem configFile_removeLine_roundTrip_cex :
    ¬ ((ConfigFile.lockAndRead
        (((ConfigFile.lockAndRead ["a", "a"]).removeLine "a").unlockAndCommit).1).checkForLine
          "a" = false) := by
  decide

/-- C1 (amended): the add round-trip holds unconditionally, and the remove
round-trip holds provided the line occurs at most once in the store — which
is an invariant of stores maintained through `addLine` alone, since `addLine`
appends only if the line is not already present; furthermore `addLine` is a
no-op when the line is present and appends it otherwise, and `removeLine`
removes exactly the first exact match and is a no-op when the line is
absent. -/
theorem configFile_roundTrip (disk : List String) (X : String) (hX : disk.count X ≤ 1) :
    (ConfigFile.lockAndRead
        (((ConfigFile.lockAndRead disk).addLine X).unlockAndCommit).1).checkForLine X = true ∧
    (ConfigFile.lockAndRead
        (((ConfigFile.lockAndRead disk).removeLine X).unlockAndCommit).1).checkForLine X =
      false ∧
    (∀ cf : ConfigFile, cf.checkForLine X = true → cf.addLine X = cf) ∧
    (∀ cf : ConfigFile, cf.checkForLine X = false →
      (cf.addLine X).m_lines = cf.m_lines ++ [X]) ∧
    (∀ cf : ConfigFile, cf.checkForLine X = false → cf.removeLine X = cf) ∧
    (∀ (b : Bool) (pre post : List String), X ∉ pre →
      ConfigFile.removeLine { m_lines := pre ++ X :: post, m_locked := b } X =
        { m_lines := pre ++ post, m_locked := b }) := by
  refine ⟨?_, ?_, ?_, ?_, ?_, ?_⟩
  · simpa [ConfigFile.lockAndRead, ConfigFile.unlockAndCommit, ConfigFile.checkForLine] using
      addLine_contains (ConfigFile.lockAndRead disk) X
  · unfold ConfigFile.lockAndRead ConfigFile.removeLine ConfigFile.unlockAndCommit
      ConfigFile.checkForLine
    have h0 : (disk.erase X).count X = 0 := by
      rw [List.count_erase_self]
      omega
    have h1 : X ∉ disk.erase X := List.count_eq_zero.mp h0
    rw [Bool.eq_false_iff]
    intro hc
    exact h1 (List.elem_iff.mp hc)
  · intro cf h
    unfold ConfigFile.checkForLine at h
    unfold ConfigFile.addLine
    rw [if_pos h]
  · intro cf h
    unfold ConfigFile.checkForLine at h
    unfold ConfigFile.addLine
    rw [if_neg (Bool.eq_false_iff.mp h)]
  · intro cf h
    unfold ConfigFile.checkForLine at h
    have hm : X ∉ cf.m_lines := by
      intro hmem
      rw [Bool.eq_false_iff] at h
      exact h (List.elem_iff.mpr hmem)
    unfold ConfigFile.removeLine
    rw [List.erase_of_not_mem hm]
  · intro b pre post hpre
    unfold ConfigFile.removeLine
    rw [List.erase_append_right _ hpre, List.erase_cons_head]

/-- C1 witness: the amended round-trip instantiated at the empty store and
line "a". -/
theorem configFile_roundTrip_witness :
    (([] : List String).count "a" ≤ 1) ∧
    ((ConfigFile.lockAndRead
        (((ConfigFile.lockAndRead []).addLine "a").unlockAndCommit).1).checkForLine "a" =
      true ∧
     (ConfigFile.lockAndRead
        (((ConfigFile.lockAndRead []).removeLine "a").unlockAndCommit).1).checkForLine "a" =
      false ∧
     (∀ cf : ConfigFile, cf.checkForLine "a" = true → cf.addLine "a" = cf) ∧
     (∀ cf : ConfigFile, cf.checkForLine "a" = false →
       (cf.addLine "a").m_lines = cf.m_lines ++ ["a"]) ∧
     (∀ cf : ConfigFile, cf.checkForLine "a" = false → cf.removeLine "a" = cf) ∧
     (∀ (b : Bool) (pre post : List String), "a" ∉ pre →
       ConfigFile.removeLine { m_lines := pre ++ "a" :: post, m_locked := b } "a" =
         { m_lines := pre ++ post, m_locked := b })) :=
  ⟨by decide, configFile_roundTrip [] "a" (by decide)⟩

/-- C3 counterexample: the claim as stated fails when the specs store already
holds a name twice (nothing in the line-oriented store format forbids this,
and `removeLine` removes only the first exact match).  With registry
`["SpecA"]` and store `["SpecA", "SpecA"]`, `disableDataSpecs(["SpecA"])`
succeeds — the name is known — yet the store still contains "SpecA" and the
active flags observed via `rescanActive` still report SpecA active, so the
flags did not change accordingly. -/
theorem dataSpecs_disable_duplicate_cex :
    (disableDataSpecs ["SpecA"] ["SpecA", "SpecA"] ["SpecA"]).1 = true ∧
    (disableDataSpecs ["SpecA"] ["SpecA", "SpecA"] ["SpecA"]).2.contains "SpecA" = true ∧
    ("SpecA", true) ∈ rescanActive ["SpecA"]
      (disableDataSpecs ["SpecA"] ["SpecA", "SpecA"] ["SpecA"]).2 := by
  decide

/-- C3 (amended): `enableDataSpecs`/`disableDataSpecs` validate every name
against the DataSpec registry.  Any unknown name makes the call return false with the
specs store (hence the active flags) untouched; when every name is known the
store is rewritten in one locked transaction and the flags change
accordingly: each enabled name becomes a store line (active in
`rescanActive`), and each disabled name's line is removed (the store kept
duplicate-free, as `addLine` maintains). -/
theorem dataSpecs_toggle_spec (registry disk names : List String) :
    ((∃ n ∈ names, registry.contains n = false) →
      enableDataSpecs registry disk names = (false, disk) ∧
      disableDataSpecs registry disk names = (false, disk)) ∧
    ((∀ n ∈ names, registry.contains n = true) →
      (enableDataSpecs registry disk names).1 = true ∧
      (∀ n ∈ names, (enableDataSpecs registry disk names).2.contains n = true) ∧
      (∀ n ∈ names, (n, true) ∈ rescanActive registry (enableDataSpecs registry disk names).2) ∧
      (disableDataSpecs registry disk names).1 = true ∧
      (disk.Nodup → ∀ n ∈ names, (disableDataSpecs registry disk names).2.contains n = false)) := by
  constructor
  · rintro ⟨n, hn, hreg⟩
    have hall : (names.all fun n => registry.contains n) = false := by
      rw [List.all_eq_false]
      exact ⟨n, hn, by simpa using hreg⟩
    constructor
    · unfold enableDataSpecs
      rw [hall]
      rfl
    · unfold disableDataSpecs
      rw [hall]
      rfl
  · intro h
    have hall : (names.all fun n => registry.contains n) = true := by
      rw [List.all_eq_true]
      intro n hn
      simpa using h n hn
    have henable : (enableDataSpecs registry disk names).2 =
        (names.foldl ConfigFile.addLine (ConfigFile.lockAndRead disk)).m_lines := by
      simp only [enableDataSpecs, hall]
      rw [if_pos trivial]
      rfl
    have hdisable : (disableDataSpecs registry disk names).2 =
        names.foldl (fun l x => l.erase x) disk := by
      simp only [disableDataSpecs, hall]
      rw [if_pos trivial]
      show (names.foldl ConfigFile.removeLine (ConfigFile.lockAndRead disk)).m_lines = _
      rw [foldl_removeLine_lines]
      rfl
    refine ⟨?_, ?_, ?_, ?_, ?_⟩
    · simp only [enableDataSpecs, hall]
      rw [if_pos trivial]
    · intro n hn
      rw [henable]
      exact List.elem_iff.mpr (mem_foldl_addLine names (ConfigFile.lockAndRead disk) n hn)
    · intro n hn
      have hmemreg : n ∈ registry := List.elem_iff.mp (h n hn)
      have hline : (enableDataSpecs registry disk names).2.contains n = true := by
        rw [henable]
        exact List.elem_iff.mpr (mem_foldl_addLine names (ConfigFile.lockAndRead disk) n hn)
      unfold rescanActive
      exact List.mem_map.mpr ⟨n, hmemreg, by rw [hline]⟩
    · simp only [disableDataSpecs, hall]
      rw [if_pos trivial]
    · intro hnd n hn
      rw [hdisable]
      rw [Bool.eq_false_iff]
      intro hc
      exact not_mem_foldl_erase names disk hnd n hn (List.elem_iff.mp hc)

/-- C3 witness: with registry `["SpecA"]`, enabling the unknown name "SpecB"
fails and leaves the empty store unchanged; enabling "SpecA" makes it active;
disabling "SpecA" from the store `["SpecA"]` makes it inactive. -/
theorem dataSpecs_toggle_witness :
    (∃ n ∈ ["SpecB"], (["SpecA"].contains n) = false) ∧
    (∀ n ∈ ["SpecA"], (["SpecA"].contains n) = true) ∧
    enableDataSpecs ["SpecA"] [] ["SpecB"] = (false, []) ∧
    (enableDataSpecs ["SpecA"] [] ["SpecA"]).2.contains "SpecA" = true ∧
    (disableDataSpecs ["SpecA"] ["SpecA"] ["SpecA"]).2.contains "SpecA" = false := by
  refine ⟨⟨"SpecB", by decide, by decide⟩, by decide, ?_, ?_, ?_⟩
  · exact ((dataSpecs_toggle_spec ["SpecA"] [] ["SpecB"]).1 ⟨"SpecB", by decide, by decide⟩).1
  · exact (((dataSpecs_toggle_spec ["SpecA"] [] ["SpecA"]).2 (by decide)).2.1) "SpecA" (by decide)
  · exact (((dataSpecs_toggle_spec ["SpecA"] ["SpecA"] ["SpecA"]).2 (by decide)).2.2.2.2)
      (by decide) "SpecA" (by decide)

/-- C2: for every object `root` of a finite object universe (ids below `n`,
dependency targets below `n`), the depsgraph built by the work-list algorithm
contains exactly one Data node per direct-or-transitive dependency of `root`
— the node store is duplicate-free and holds precisely the `DepReach`-able
objects.  Construction is a total function, so it terminates on every
dependency shape, diamonds included (see the witness, which evaluates it on a
diamond). -/
theorem buildPackageDepsgraph_correct (deps : Nat → List Nat) (n root : Nat)
    (hroot : root < n) (hdeps : ∀ x d, d ∈ deps x → d < n) :
    (buildPackageDepsgraph deps n root).m_nodes.Nodup ∧
    (∀ x, x ∈ (buildPackageDepsgraph deps n root).m_nodes ↔ DepReach deps root x) := by
  constructor
  · exact closureIter_nodup deps n [root] (by simp)
  · intro x
    constructor
    · intro hx
      exact closureIter_sound deps root n [root]
        (fun a ha => (List.mem_singleton.mp ha) ▸ DepReach.refl) x hx
    · intro hx
      exact closureIter_complete deps n root hroot hdeps x hx

/-- C2 witness: the depsgraph rooted at 0 over the diamond dependency shape
(0 → 1, 2; 1, 2 → 3) is built, is duplicate-free, and holds exactly the
reachable objects — the shared dependency 3 appears once. -/
theorem buildPackageDepsgraph_correct_witness :
    0 < 4 ∧ (∀ x d, d ∈ diamondDeps x → d < 4) ∧
    ((buildPackageDepsgraph diamondDeps 4 0).m_nodes.Nodup ∧
      (∀ x, x ∈ (buildPackageDepsgraph diamondDeps 4 0).m_nodes ↔ DepReach diamondDeps 0 x)) := by
  have hd : ∀ x d, d ∈ diamondDeps x → d < 4 := by
    intro x d h
    match x, h with
    | 0, h =>
      simp [diamondDeps] at h
      rcases h with rfl | rfl <;> omega
    | 1, h =>
      simp [diamondDeps] at h
      omega
    | 2, h =>
      simp [diamondDeps] at h
      omega
    | (m + 3), h =>
      simp [diamondDeps] at h
  exact ⟨by omega, hd, buildPackageDepsgraph_correct diamondDeps 4 0 (by omega) hd⟩

/-- C9: `getRootNode` dereferences element 0 of the node store, so it yields
a node exactly when the store is non-empty (`none` models the out-of-bounds
access on an empty store), and every depsgraph built by
`buildPackageDepsgraph` is non-empty with the requested root as node 0. -/
theorem getRootNode_spec :
    (∀ g : PackageDepsgraph, g.getRootNode = none ↔ g.m_nodes = []) ∧
    (∀ (deps : Nat → List Nat) (n root : Nat),
      (buildPackageDepsgraph deps n root).m_nodes ≠ [] ∧
      (buildPackageDepsgraph deps n root).getRootNode = some root) := by
  constructor
  · intro g
    obtain ⟨l⟩ := g
    cases l <;> simp [PackageDepsgraph.getRootNode]
  · intro deps n root
    obtain ⟨t, ht⟩ := closureIter_eq_append deps n [root]
    constructor
    · unfold buildPackageDepsgraph
      rw [ht]
      simp
    · unfold PackageDepsgraph.getRootNode buildPackageDepsgraph
      rw [ht]
      simp

end Database

end hecl
